import Mathlib

/-!
Shallow embedding of the incremental content-discovery engine of the
doordashScraper repository.

The authoritative implementation is src/SCRAPE.py (class DoorDashScraper):
category-boundary indexing (method named after mapping categories, lines
60-70), the snapshot parser with deduplication (lines 146-202), the active
vertical scroll loop (lines 72-100), the per-carousel horizontal scroll loop
(lines 125-144) and carousel detection (lines 102-123).  The gradual
scroll-back-to-top phase of src/doordash_scraper.py (lines 166-177) is also
embedded for the claim about returning the axis to its origin.

Python strings are modelled as lists of characters, the browser as a
preordained trace of readings (the loops only observe extent and offset
values, so a trace of those readings determines the control flow), and
JavaScript numbers in the scroll-back model as exact rationals.
-/

namespace DScrape

/-- Python strings are modelled as lists of characters. -/
abbrev Str := List Char

/-- Whitespace characters removed by the Python strip method (ASCII subset). -/
def isSpaceChar (c : Char) : Bool :=
  c = ' ' || c = '\t' || c = '\n' || c = '\r' || c = '\x0b' || c = '\x0c'

/-- Python strip: drop leading and trailing whitespace. -/
def pyStrip (s : Str) : Str :=
  ((s.dropWhile isSpaceChar).reverse.dropWhile isSpaceChar).reverse

/-- An h2 heading node with role heading, as read from one snapshot: its text
content and its optional sourceline attribute (SCRAPE.py lines 63-66). -/
structure Heading where
  text : Str
  sourceline : Option Nat
  deriving DecidableEq

/-- One category boundary: the heading sourceline (0 when missing) and the
stripped heading text (SCRAPE.py line 66). -/
structure Header where
  line : Nat
  name : Str
  deriving DecidableEq

/-- Embeds the category-mapping method (SCRAPE.py lines 60-70): keep headings
whose stripped text has length above two and differs from the literal word
Menu, tag each with its sourceline or 0, and sort ascending by line.  The
Python list sort is a stable sort, modelled by mergeSort. -/
def mapCategories (hs : List Heading) : List Header :=
  (hs.filterMap (fun h =>
    if 2 < (pyStrip h.text).length ∧ pyStrip h.text ≠ "Menu".toList then
      some ⟨h.sourceline.getD 0, pyStrip h.text⟩
    else none)).mergeSort (fun a b => decide (a.line ≤ b.line))

/-- Embeds the category-assignment block of the view parser (SCRAPE.py lines
173-187): with a nonempty index, an item at line 0 gets the first boundary;
otherwise the last boundary whose line is at most the item line, falling back
to the first boundary when none qualifies; with an empty index the constant
fallback label is used. -/
def assignCategory (headersMap : List Header) (itemLine : Nat) : Str :=
  match headersMap with
  | [] => "Uncategorized".toList
  | h0 :: _ =>
    if itemLine = 0 then h0.name
    else
      match (headersMap.filter (fun h => decide (h.line ≤ itemLine))).getLast? with
      | some h => h.name
      | none => h0.name

/-- Embeds the name derivation of the view parser (SCRAPE.py line 157): the
text before the first dollar sign, with surrounding whitespace stripped.
Splitting a Python string at the dollar character and keeping piece zero is
takeWhile on characters, followed by strip. -/
def nameOf (label : Str) : Str :=
  pyStrip (label.takeWhile (fun c => c ≠ '$'))

/-- Decimal digit test, for the spec-side trailing-price model. -/
def isDigitChar (c : Char) : Bool :=
  decide ('0' ≤ c) && decide (c ≤ '9')

/-- Modelled from the spec words of claim C5, for comparison against nameOf:
split off a trailing price fragment, a currency symbol followed by digits, at
the end of the label, then strip; a label without such a trailing fragment is
kept whole (stripped). -/
def trailingPriceName (label : Str) : Str :=
  if label.reverse.takeWhile isDigitChar ≠ [] ∧
      (label.reverse.dropWhile isDigitChar).head? = some '$' then
    pyStrip ((label.reverse.dropWhile isDigitChar).tail.reverse)
  else pyStrip label

/-- A candidate item node, a div with role button (SCRAPE.py lines 149-171):
its optional aria-label, the optional string found by the price regex search,
the optional img child with its optional src attribute, the optional
sourceline, and a flag recording whether extracting the substructure of this node
succeeds.  The try block of the per-node loop catches any exception; the only
fallible operations in that block (the searches inside the subtree of the node)
all precede the two state mutations, so a per-node failure is modelled as a
failure point before any mutation. -/
structure ItemNode where
  ariaLabel : Option Str
  priceText : Option Str
  imgTag : Option (Option Str)
  sourceline : Option Nat
  extractOk : Bool
  deriving DecidableEq

/-- One extracted menu entry (SCRAPE.py lines 193-197). -/
structure MenuItem where
  name : Str
  price : Option Str
  image : Option Str
  deriving DecidableEq

/-- The mutable scraper state: the master menu, an insertion-ordered mapping
from category name to its items, and the set of seen deduplication hashes.
The Python set is modelled as a list used only through membership and
insertion. -/
structure ScrapeState where
  masterMenu : List (Str × List MenuItem)
  seenHashes : List Str
  deriving DecidableEq

/-- The empty initial state created in the constructor (SCRAPE.py lines
14-15). -/
def initState : ScrapeState := ⟨[], []⟩

/-- Embeds the master-menu insertion (SCRAPE.py lines 190-197): create the
key with an empty list when absent, then append the item to the list under
that key.
Python dict keys are unique, so only the first matching entry is touched. -/
def menuAdd : List (Str × List MenuItem) → Str → MenuItem → List (Str × List MenuItem)
  | [], cat, it => [(cat, [it])]
  | p :: rest, cat, it =>
    if p.1 = cat then (p.1, p.2 ++ [it]) :: rest
    else p :: menuAdd rest cat it

/-- All item names appearing anywhere in the master menu, across every
category, in order. -/
def menuNames (menu : List (Str × List MenuItem)) : List Str :=
  (menu.map (fun p => p.2.map (fun it => it.name))).flatten

/-- Embeds the per-node body of the view parser (SCRAPE.py lines 151-202):
skip a node with a missing or empty aria-label; derive the name and the
deduplication hash (exactly the name); skip when the hash was already seen;
a per-node extraction failure is caught by the bare except and leaves the
state unchanged; otherwise extract price and image, resolve the category from
the sourceline (0 when missing), append to the master menu and record the
hash. -/
def processNode (hm : List Header) (st : ScrapeState) (n : ItemNode) : ScrapeState :=
  match n.ariaLabel with
  | none => st
  | some lbl =>
    if lbl = [] then st
    else
      let name := nameOf lbl
      if name ∈ st.seenHashes then st
      else if n.extractOk = false then st
      else
        ⟨menuAdd st.masterMenu (assignCategory hm (n.sourceline.getD 0))
          ⟨name, n.priceText.map pyStrip, n.imgTag.join⟩,
         name :: st.seenHashes⟩

/-- Embeds one call of the view parser (SCRAPE.py lines 146-202): fold the
per-node body over the candidate nodes of the snapshot in document order. -/
def parseView (hm : List Header) (st : ScrapeState) (ns : List ItemNode) : ScrapeState :=
  ns.foldl (processNode hm) st

/-- A whole discovery run: every sweep step, vertical or horizontal, calls the
same view parser on the shared state, so a run is a fold of parseView over the
sequence of sampled snapshots starting from the empty state. -/
def runSamples (hm : List Header) (samples : List (List ItemNode)) : ScrapeState :=
  samples.foldl (fun st ns => parseView hm st ns) initState

/-- Terminal state of one axis sweep: the loop either detected saturation and
broke, or exhausted its fixed step ceiling. -/
inductive SweepEnd where
  | saturated
  | aborted
  deriving DecidableEq

/-- Embeds the per-carousel loop (SCRAPE.py lines 125-144) over a preordained
trace of scrollLeft readings, indexed by iteration: while attempts are below
the ceiling, parse once, read the offset, break when it equals the previous
reading, otherwise advance and continue.  The fuel argument is the ceiling
minus the attempts counter; the result is the number of parse calls performed
and how the sweep ended. -/
def carouselLoop (offs : Nat → Int) : Nat → Int → Nat → Nat × SweepEnd
  | 0, _, _ => (0, SweepEnd.aborted)
  | fuel + 1, prev, k =>
    let curr := offs k
    if curr = prev then (1, SweepEnd.saturated)
    else
      let r := carouselLoop offs fuel curr (k + 1)
      (r.1 + 1, r.2)

/-- A full carousel sweep: ceiling 10 attempts, previous reading initialised
to minus one (SCRAPE.py lines 127-130). -/
def carouselRun (offs : Nat → Int) : Nat × SweepEnd :=
  carouselLoop offs 10 (-1) 0

/-- The readings one iteration of the vertical loop can observe (SCRAPE.py
lines 88-94): the document height after the advance and settle, the bottom of
the current viewport, and the document height re-read after the additional
confirmation settle (only consulted when the first reading was flat). -/
structure VObs where
  newHeight : Nat
  currScroll : Nat
  recheckHeight : Nat
  deriving DecidableEq

/-- Embeds the vertical scroll loop (SCRAPE.py lines 79-96) over a preordained
trace of per-iteration readings: each iteration parses once, advances, and
breaks only when the viewport bottom has reached the document height and a
re-read after an additional settle still shows no taller document; the result
is the number of parse calls and how the sweep ended. -/
def verticalLoop (env : Nat → VObs) : Nat → Nat → Nat × SweepEnd
  | 0, _ => (0, SweepEnd.aborted)
  | fuel + 1, i =>
    if (env i).newHeight ≤ (env i).currScroll ∧
        (env i).recheckHeight ≤ (env i).currScroll then (1, SweepEnd.saturated)
    else
      let r := verticalLoop env fuel (i + 1)
      (r.1 + 1, r.2)

/-- A full vertical sweep: ceiling 20 iterations (SCRAPE.py line 79). -/
def verticalRun (env : Nat → VObs) : Nat × SweepEnd :=
  verticalLoop env 20 0

/-- A candidate carousel container (SCRAPE.py lines 107-117): its horizontal
content extent, its visible extent, and whether the scrollability query on it
succeeds (the bare except treats a failing container as not a carousel). -/
structure PanelCand where
  scrollWidth : Nat
  clientWidth : Nat
  queryOk : Bool
  deriving DecidableEq

/-- The scrollability test (SCRAPE.py lines 113-117): the query succeeded and
the content extent strictly exceeds the visible extent. -/
def isScrollablePanel (c : PanelCand) : Bool :=
  c.queryOk && decide (c.clientWidth < c.scrollWidth)

/-- Embeds panel location inside the horizontal scrape (SCRAPE.py lines
107-123): of the enumerated candidate containers, exactly those whose query
succeeds and which are scrollable are processed as carousels, in order. -/
def locatePanels (cs : List PanelCand) : List PanelCand :=
  cs.filter isScrollablePanel

/-- A scroll command issued to the axis: an absolute jump or a relative
step. -/
inductive ScrollCmd where
  | absTo (y : ℚ)
  | relBy (d : ℚ)
  deriving DecidableEq

/-- Effect of one scroll command on the axis offset, clamped between 0 and
the maximal offset. -/
def applyCmd (maxOff : ℚ) (off : ℚ) : ScrollCmd → ℚ
  | ScrollCmd.absTo y => max 0 (min y maxOff)
  | ScrollCmd.relBy d => max 0 (min (off + d) maxOff)

/-- Run a list of scroll commands from a starting offset. -/
def runCmds (maxOff off : ℚ) (cs : List ScrollCmd) : ℚ :=
  cs.foldl (applyCmd maxOff) off

/-- The scroll-back phase at the end of the active vertical scrape in
SCRAPE.py (line 99): a single absolute jump to offset 0. -/
def scrapeReturnCmds : List ScrollCmd :=
  [ScrollCmd.absTo 0]

/-- The scroll-back-to-top phase of the scroll-page method in
doordash_scraper.py (lines 166-177): n relative steps (n drawn between 5 and
10), each of size the current offset divided by n, negated. -/
def ddReturnCmds (h : ℚ) (n : Nat) : List ScrollCmd :=
  List.replicate n (ScrollCmd.relBy (-(h / n)))

/-- The deduplication identity of a candidate node: the cleaned name derived
from its aria-label (SCRAPE.py lines 154-160); a node with a missing or empty
label has no identity and is skipped. -/
def identityKey? (n : ItemNode) : Option Str :=
  match n.ariaLabel with
  | none => none
  | some l => if l = [] then none else some (nameOf l)

/-- The dedup invariant: every name in the master menu occurs exactly once
across all categories, and every such name is in the seen-hash ledger. -/
def goodState (st : ScrapeState) : Prop :=
  (menuNames st.masterMenu).Nodup ∧
  ∀ nm ∈ menuNames st.masterMenu, nm ∈ st.seenHashes

/-- Scenario trace for claim C1: carousel offsets advance by 800 per step and
the extent stops growing after the third reading (ceiling 1600). -/
def offsStopAfter3 : Nat → Int := fun k => min (800 * (k : Int)) 1600

/-- Counterexample trace for claim C1: the offset reading is momentarily flat
at the second step (pending lazy load) but would grow right afterwards. -/
def offsSingleFlat : Nat → Int := fun k => if k ≤ 1 then 0 else 800

/-- Witness trace for claim C1: the first height reading is flat but the
confirmation re-read shows a taller document. -/
def vobsFlatGrow : Nat → VObs := fun _ => ⟨100, 100, 200⟩

/-- The category index of spec scenario 1: boundaries at positions 10 and
50. -/
def scenario1Headers : List Header :=
  [⟨10, "Starters".toList⟩, ⟨50, "Mains".toList⟩]

/-- When every element of the first block satisfies the predicate and the
separator fails it, takeWhile returns exactly the first block. -/
theorem takeWhile_all_append (q : Char → Bool) (l1 l2 : Str) (c0 : Char)
    (h1 : ∀ c ∈ l1, q c = true) (h0 : q c0 = false) :
    (l1 ++ c0 :: l2).takeWhile q = l1 := by
  induction l1 with
  | nil => simp [List.takeWhile_cons, h0]
  | cons a as ih =>
    have ha : q a = true := h1 a (List.mem_cons_self a as)
    simp only [List.cons_append, List.takeWhile_cons, ha, if_true]
    rw [ih (fun c hc => h1 c (List.mem_cons_of_mem a hc))]

/-- When every element of the first block satisfies the predicate and the
separator fails it, dropWhile returns the separator and everything after. -/
theorem dropWhile_all_append (q : Char → Bool) (l1 l2 : Str) (c0 : Char)
    (h1 : ∀ c ∈ l1, q c = true) (h0 : q c0 = false) :
    (l1 ++ c0 :: l2).dropWhile q = c0 :: l2 := by
  induction l1 with
  | nil => simp [List.dropWhile_cons, h0]
  | cons a as ih =>
    have ha : q a = true := h1 a (List.mem_cons_self a as)
    simp only [List.cons_append, List.dropWhile_cons, ha, if_true]
    exact ih (fun c hc => h1 c (List.mem_cons_of_mem a hc))

/-- The name derived by the code for a label of the form prefix, dollar sign,
remainder, when the prefix holds no dollar sign: the stripped prefix. -/
theorem nameOf_split (p rest : Str) (hp : '$' ∉ p) :
    nameOf (p ++ '$' :: rest) = pyStrip p := by
  have h1 : ∀ c ∈ p, (fun c => decide (c ≠ '$')) c = true := by
    intro c hc
    simp only [decide_eq_true_eq]
    intro h
    exact hp (h ▸ hc)
  unfold nameOf
  rw [takeWhile_all_append (fun c => decide (c ≠ '$')) p rest '$' h1 (by simp)]

/-- The spec-side trailing-price split agrees with the stripped prefix when
the label is a dollar-free prefix followed by a dollar sign and digits. -/
theorem trailingPriceName_split (p ds : Str) (hne : ds ≠ [])
    (hds : ∀ c ∈ ds, isDigitChar c = true) :
    trailingPriceName (p ++ '$' :: ds) = pyStrip p := by
  have hrev : (p ++ '$' :: ds).reverse = ds.reverse ++ '$' :: p.reverse := by
    simp
  have hdig : ∀ c ∈ ds.reverse, isDigitChar c = true :=
    fun c hc => hds c (List.mem_reverse.mp hc)
  have hdol : isDigitChar '$' = false := by decide
  unfold trailingPriceName
  rw [hrev, takeWhile_all_append isDigitChar ds.reverse p.reverse '$' hdig hdol,
    dropWhile_all_append isDigitChar ds.reverse p.reverse '$' hdig hdol,
    if_pos ⟨by simpa using hne, rfl⟩]
  simp

/-- Claim C5, counterexample.  The code derives the name by splitting at the
first dollar sign, not by splitting off a trailing price fragment: on the
label Fries dollar 5 space Combo the code yields Fries, while removing a
trailing currency-symbol-plus-digits fragment would leave the label whole
(its tail is not a price fragment).  So the claim as stated fails at this
concrete label. -/
theorem C5_counterexample :
    nameOf "Fries $5 Combo".toList ≠ trailingPriceName "Fries $5 Combo".toList ∧
    nameOf "Fries $5 Combo".toList = "Fries".toList ∧
    trailingPriceName "Fries $5 Combo".toList = "Fries $5 Combo".toList := by
  decide

/-- Claim C5, amended: the name is the label text before the first dollar
sign, whitespace-stripped, which coincides with splitting off a trailing
price fragment exactly when the label is a dollar-free prefix followed by one
dollar sign and digits; a candidate with a missing or empty label is skipped
with the state unchanged; and the identity key depends only on the label, so
it is stable across samples even when the document position shifted. -/
theorem C5_amended_name_derivation :
    (∀ p rest : Str, '$' ∉ p → nameOf (p ++ '$' :: rest) = pyStrip p) ∧
    (∀ p ds : Str, '$' ∉ p → ds ≠ [] → (∀ c ∈ ds, isDigitChar c = true) →
        nameOf (p ++ '$' :: ds) = trailingPriceName (p ++ '$' :: ds)) ∧
    (∀ (hm : List Header) (st : ScrapeState) (n : ItemNode),
        n.ariaLabel = none ∨ n.ariaLabel = some [] → processNode hm st n = st) ∧
    (∀ n1 n2 : ItemNode, n1.ariaLabel = n2.ariaLabel →
        identityKey? n1 = identityKey? n2) := by
  refine ⟨nameOf_split, ?_, ?_, ?_⟩
  · intro p ds hp hne hds
    rw [nameOf_split p ds hp, trailingPriceName_split p ds hne hds]
  · intro hm st n h
    rcases h with h | h <;> simp [processNode, h]
  · intro n1 n2 h
    unfold identityKey?
    rw [h]

/-- Claim C5, witness: the amended name derivation applied to the concrete
label Taco dollar 8. -/
theorem C5_witness :
    nameOf ("Taco ".toList ++ '$' :: "8".toList) = pyStrip "Taco ".toList :=
  C5_amended_name_derivation.1 "Taco ".toList "8".toList (by decide)

/-- In a list pairwise-sorted by line, the line of every member is at most
the line of the element returned by getLast?. -/
theorem line_le_getLast :
    ∀ {l : List Header} {x y : Header},
      List.Pairwise (fun a b : Header => a.line ≤ b.line) l →
      x ∈ l → l.getLast? = some y → x.line ≤ y.line := by
  intro l
  induction l with
  | nil => intro x y _ hx _; cases hx
  | cons a as ih =>
    intro x y hp hx hy
    cases as with
    | nil =>
      have hxa : x = a := List.eq_of_mem_singleton hx
      have hya : a = y := by simpa using hy
      rw [hxa, ← hya]
    | cons b bs =>
      have hy' : (b :: bs).getLast? = some y := by
        rw [List.getLast?_cons_cons] at hy
        exact hy
      have hne : b :: bs ≠ [] := by simp
      have hymem : y ∈ b :: bs := by
        rw [List.getLast?_eq_getLast _ hne] at hy'
        exact (Option.some.inj hy').symm ▸ List.getLast_mem hne
      rcases List.mem_cons.mp hx with rfl | hx'
      · exact (List.pairwise_cons.mp hp).1 y hymem
      · exact ih (List.pairwise_cons.mp hp).2 hx' hy'

/-- Claim C2: with a nonempty index and a nonzero item position, the assigned
category is the name of a boundary of greatest position at most the item
position; an item whose position precedes all boundaries, or whose position
is the unknown sentinel 0, gets the name of the first boundary; an empty
index
yields the constant fallback label without failing; and spec scenario 1
assigns Starters, Starters, Mains to items at 5, 12, 60. -/
theorem C2_category_assignment :
    (∀ (hm : List Header) (pos : Nat),
        List.Pairwise (fun a b : Header => a.line ≤ b.line) hm → pos ≠ 0 →
        (∃ h ∈ hm, h.line ≤ pos) →
        ∃ h ∈ hm, h.line ≤ pos ∧
          (∀ h2 ∈ hm, h2.line ≤ pos → h2.line ≤ h.line) ∧
          assignCategory hm pos = h.name) ∧
    (∀ (h0 : Header) (rest : List Header) (pos : Nat),
        (pos = 0 ∨ ∀ h ∈ h0 :: rest, pos < h.line) →
        assignCategory (h0 :: rest) pos = h0.name) ∧
    (∀ pos, assignCategory [] pos = "Uncategorized".toList) ∧
    assignCategory scenario1Headers 5 = "Starters".toList ∧
    assignCategory scenario1Headers 12 = "Starters".toList ∧
    assignCategory scenario1Headers 60 = "Mains".toList := by
  refine ⟨?_, ?_, ?_, by decide, by decide, by decide⟩
  · intro hm pos hsort hpos hex
    cases hm with
    | nil => simp at hex
    | cons h0 tl =>
      obtain ⟨h, hmem, hle⟩ := hex
      have hmemf : h ∈ (h0 :: tl).filter (fun h => decide (h.line ≤ pos)) :=
        List.mem_filter.mpr ⟨hmem, by simpa using hle⟩
      have hnef := List.ne_nil_of_mem hmemf
      have hlastEq := List.getLast?_eq_getLast _ hnef
      have hlastMem := List.mem_filter.mp
        (List.getLast_mem (l := (h0 :: tl).filter (fun h => decide (h.line ≤ pos))) hnef)
      refine ⟨_, hlastMem.1, by simpa using hlastMem.2, ?_, ?_⟩
      · intro h2 hmem2 hle2
        exact line_le_getLast
          (List.Pairwise.sublist (List.filter_sublist (h0 :: tl)) hsort)
          (List.mem_filter.mpr ⟨hmem2, by simpa using hle2⟩) hlastEq
      · simp only [assignCategory]
        rw [if_neg hpos, hlastEq]
  · intro h0 rest pos hcase
    by_cases hz : pos = 0
    · simp [assignCategory, hz]
    · rcases hcase with hcase | hcase
      · exact absurd hcase hz
      · have hfil : (h0 :: rest).filter (fun h => decide (h.line ≤ pos)) = [] :=
          List.filter_eq_nil_iff.mpr (fun a ha => by
            simpa using Nat.not_le.mpr (hcase a ha))
        simp only [assignCategory]
        rw [if_neg hz, hfil]
        rfl
  · intro pos
    rfl

/-- Claim C2, witness: the greatest-boundary characterization applied to the
scenario index with an item at position 12. -/
theorem C2_witness :
    ∃ h ∈ scenario1Headers, h.line ≤ 12 ∧
      (∀ h2 ∈ scenario1Headers, h2.line ≤ 12 → h2.line ≤ h.line) ∧
      assignCategory scenario1Headers 12 = h.name :=
  C2_category_assignment.1 scenario1Headers 12 (by decide) (by decide) (by decide)

/-- Claim C8: the category index built from any snapshot is sorted ascending
by position, and no boundary in it has an empty label, a label of length at
most two, or the literal label Menu. -/
theorem C8_category_index (hs : List Heading) :
    List.Pairwise (fun a b : Header => a.line ≤ b.line) (mapCategories hs) ∧
    ∀ b ∈ mapCategories hs,
      b.name ≠ [] ∧ ¬ b.name.length ≤ 2 ∧ b.name ≠ "Menu".toList := by
  constructor
  · unfold mapCategories
    refine List.Pairwise.imp ?_ (List.sorted_mergeSort ?_ ?_ _)
    · intro a b h
      simpa using h
    · intro a b c hab hbc
      simp only [decide_eq_true_eq] at *
      omega
    · intro a b
      simp only [Bool.or_eq_true, decide_eq_true_eq]
      omega
  · intro b hb
    unfold mapCategories at hb
    rw [List.mem_mergeSort] at hb
    obtain ⟨h, _, hf⟩ := List.mem_filterMap.mp hb
    split at hf
    · next hcond =>
      obtain ⟨hlen, hmenu⟩ := hcond
      cases Option.some.inj hf
      refine ⟨?_, Nat.not_le.mpr hlen, hmenu⟩
      intro hnil
      have heq : pyStrip h.text = [] := hnil
      rw [heq] at hlen
      simp at hlen
    · cases hf

/-- Claim C8, witness: the index built from one concrete heading, with the
label conditions checked on its single boundary. -/
theorem C8_witness :
    List.Pairwise (fun a b : Header => a.line ≤ b.line)
      (mapCategories [⟨" Drinks ".toList, some 7⟩]) ∧
    (⟨7, "Drinks".toList⟩ : Header).name ≠ [] :=
  ⟨(C8_category_index [⟨" Drinks ".toList, some 7⟩]).1,
   ((C8_category_index [⟨" Drinks ".toList, some 7⟩]).2 ⟨7, "Drinks".toList⟩
      (by unfold mapCategories; rw [List.mem_mergeSort]; decide)).1⟩

/-- Claim C7: panel location returns exactly the candidate containers whose
query succeeds and whose content extent exceeds their visible extent, in
order; a container whose query fails is excluded without disturbing the rest;
and of three containers where only the middle one is scrollable, exactly that
one is returned. -/
theorem C7_panel_locator :
    (∀ (cs : List PanelCand) (c : PanelCand),
        c ∈ locatePanels cs ↔
          c ∈ cs ∧ c.queryOk = true ∧ c.clientWidth < c.scrollWidth) ∧
    (∀ (xs ys : List PanelCand) (bad : PanelCand), bad.queryOk = false →
        locatePanels (xs ++ bad :: ys) = locatePanels (xs ++ ys)) ∧
    locatePanels [⟨500, 500, true⟩, ⟨1200, 400, true⟩, ⟨300, 400, true⟩] =
      [⟨1200, 400, true⟩] := by
  refine ⟨?_, ?_, by decide⟩
  · intro cs c
    rw [locatePanels, List.mem_filter]
    simp [isScrollablePanel, and_assoc]
  · intro xs ys bad hbad
    simp [locatePanels, List.filter_append, List.filter_cons,
      isScrollablePanel, hbad]

/-- Claim C7, witness: a container with a failing query in the middle of the
enumeration is excluded while the others are still considered. -/
theorem C7_witness :
    locatePanels ([⟨800, 400, true⟩] ++ (⟨900, 100, false⟩ : PanelCand) ::
        [⟨300, 400, true⟩]) =
      locatePanels ([⟨800, 400, true⟩] ++ [⟨300, 400, true⟩]) :=
  C7_panel_locator.2.1 [⟨800, 400, true⟩] [⟨300, 400, true⟩] ⟨900, 100, false⟩ rfl

/-- The carousel loop performs at most fuel parse steps. -/
theorem carouselLoop_fst_le (offs : Nat → Int) :
    ∀ (fuel : Nat) (prev : Int) (k : Nat),
      (carouselLoop offs fuel prev k).1 ≤ fuel := by
  intro fuel
  induction fuel with
  | zero =>
    intro prev k
    simp [carouselLoop]
  | succ fuel ih =>
    intro prev k
    by_cases h : offs k = prev
    · simp [carouselLoop, h]
    · simp only [carouselLoop, if_neg h]
      exact Nat.succ_le_succ (ih (offs k) (k + 1))

/-- The vertical loop performs at most fuel parse steps. -/
theorem verticalLoop_fst_le (env : Nat → VObs) :
    ∀ (fuel i : Nat), (verticalLoop env fuel i).1 ≤ fuel := by
  intro fuel
  induction fuel with
  | zero =>
    intro i
    simp [verticalLoop]
  | succ fuel ih =>
    intro i
    by_cases h : (env i).newHeight ≤ (env i).currScroll ∧
        (env i).recheckHeight ≤ (env i).currScroll
    · simp [verticalLoop, h]
    · simp only [verticalLoop, if_neg h]
      exact Nat.succ_le_succ (ih (i + 1))

/-- A sweep can only end saturated or aborted. -/
theorem sweepEnd_cases (e : SweepEnd) :
    e = SweepEnd.saturated ∨ e = SweepEnd.aborted := by
  cases e
  · exact Or.inl rfl
  · exact Or.inr rfl

/-- Claim C4: for any trace of readings, including an extent that grows
forever, the carousel sweep performs at most 10 parse steps and the vertical
sweep at most 20, and each ends in a terminal state; both loop functions are
total, so no sweep loops unboundedly. -/
theorem C4_sweep_step_ceiling :
    (∀ offs : Nat → Int, (carouselRun offs).1 ≤ 10 ∧
        ((carouselRun offs).2 = SweepEnd.saturated ∨
          (carouselRun offs).2 = SweepEnd.aborted)) ∧
    (∀ env : Nat → VObs, (verticalRun env).1 ≤ 20 ∧
        ((verticalRun env).2 = SweepEnd.saturated ∨
          (verticalRun env).2 = SweepEnd.aborted)) :=
  ⟨fun offs => ⟨carouselLoop_fst_le offs 10 (-1) 0, sweepEnd_cases _⟩,
   fun env => ⟨verticalLoop_fst_le env 20 0, sweepEnd_cases _⟩⟩

/-- A saturated vertical sweep broke at a step whose first height reading was
flat and whose confirmation re-read was still flat. -/
theorem verticalLoop_saturated (env : Nat → VObs) :
    ∀ (fuel i : Nat), (verticalLoop env fuel i).2 = SweepEnd.saturated →
      ∃ j, i ≤ j ∧ j < i + fuel ∧
        (env j).newHeight ≤ (env j).currScroll ∧
        (env j).recheckHeight ≤ (env j).currScroll ∧
        (verticalLoop env fuel i).1 = j - i + 1 := by
  intro fuel
  induction fuel with
  | zero =>
    intro i h
    simp [verticalLoop] at h
  | succ fuel ih =>
    intro i hsat
    by_cases hc : (env i).newHeight ≤ (env i).currScroll ∧
        (env i).recheckHeight ≤ (env i).currScroll
    · exact ⟨i, Nat.le_refl i, by omega, hc.1, hc.2, by simp [verticalLoop, hc]⟩
    · have h2 : (verticalLoop env fuel (i + 1)).2 = SweepEnd.saturated := by
        simpa [verticalLoop, hc] using hsat
      obtain ⟨j, hj1, hj2, hj3, hj4, hj5⟩ := ih (i + 1) h2
      refine ⟨j, by omega, by omega, hj3, hj4, ?_⟩
      have hstep : (verticalLoop env (fuel + 1) i).1 =
          (verticalLoop env fuel (i + 1)).1 + 1 := by
        simp [verticalLoop, hc]
      omega

/-- Claim C1, counterexample.  On the panel axis a single flat offset reading
is terminal: with offset readings 0, 0, 800, the carousel sweep breaks as
saturated at its second step, with no confirmation re-check, even though the
very next reading would have shown coverage growth.  So the claim, which
asserts the confirmation re-check for every axis sweep, fails on this
concrete trace. -/
theorem C1_counterexample :
    carouselRun offsSingleFlat = (2, SweepEnd.saturated) ∧
    offsSingleFlat 1 < offsSingleFlat 2 := by
  decide

/-- Claim C1, amended: on the vertical axis a flat reading whose confirmation
re-read shows growth never terminates the sweep (the loop continues), and a
saturated vertical sweep always broke at a step where both the flat reading
and the confirmation re-check held; on a panel axis an offset reading equal
to the reading of the previous step is terminal on its own; and on an axis
whose
extent stops growing after step 3 (ceiling 10), SATURATED is reached at step
4, not step 3. -/
theorem C1_saturation_confirmation :
    (∀ (env : Nat → VObs) (fuel i : Nat),
        (env i).newHeight ≤ (env i).currScroll →
        (env i).currScroll < (env i).recheckHeight →
        verticalLoop env (fuel + 1) i =
          ((verticalLoop env fuel (i + 1)).1 + 1,
           (verticalLoop env fuel (i + 1)).2)) ∧
    (∀ env : Nat → VObs, (verticalRun env).2 = SweepEnd.saturated →
        ∃ j, j < 20 ∧ (env j).newHeight ≤ (env j).currScroll ∧
          (env j).recheckHeight ≤ (env j).currScroll ∧
          (verticalRun env).1 = j + 1) ∧
    carouselRun offsStopAfter3 = (4, SweepEnd.saturated) := by
  refine ⟨?_, ?_, by decide⟩
  · intro env fuel i hflat hgrow
    have hc : ¬((env i).newHeight ≤ (env i).currScroll ∧
        (env i).recheckHeight ≤ (env i).currScroll) := by
      intro h
      exact absurd h.2 (Nat.not_le.mpr hgrow)
    simp [verticalLoop, hc]
  · intro env hsat
    obtain ⟨j, _, hj2, hj3, hj4, hj5⟩ := verticalLoop_saturated env 20 0 hsat
    refine ⟨j, by omega, hj3, hj4, ?_⟩
    show (verticalLoop env 20 0).1 = j + 1
    omega

/-- Claim C1, witness: the continuation property applied to a trace whose
first reading is flat but whose confirmation re-read shows a taller
document. -/
theorem C1_witness :
    verticalLoop vobsFlatGrow 4 0 =
      ((verticalLoop vobsFlatGrow 3 1).1 + 1, (verticalLoop vobsFlatGrow 3 1).2) :=
  C1_saturation_confirmation.1 vobsFlatGrow 3 0 (by decide) (by decide)

/-- Running k equal negative relative steps of size s from an offset that
never leaves the clamp range subtracts k times s. -/
theorem runCmds_replicate (maxOff s : ℚ) (hs : 0 ≤ s) :
    ∀ (k : Nat) (off : ℚ), 0 ≤ off - k * s → off ≤ maxOff →
      runCmds maxOff off (List.replicate k (ScrollCmd.relBy (-s))) =
        off - k * s := by
  intro k
  induction k with
  | zero =>
    intro off h1 h2
    simp [runCmds]
  | succ k ih =>
    intro off h1 h2
    have hks : (0 : ℚ) ≤ (k : ℚ) * s := mul_nonneg (Nat.cast_nonneg k) hs
    have h1' : 0 ≤ off - s - (k : ℚ) * s := by
      push_cast at h1
      linarith
    have hstep : applyCmd maxOff off (ScrollCmd.relBy (-s)) = off - s := by
      simp only [applyCmd]
      rw [min_eq_left (by linarith), max_eq_right (by linarith)]
      ring
    have hrec := ih (off - s) h1' (by linarith)
    unfold runCmds at hrec ⊢
    rw [List.replicate_succ, List.foldl_cons, hstep, hrec]
    push_cast
    ring

/-- Claim C9, counterexample.  The vertical sweeper of SCRAPE.py returns to
the top with the single absolute command scrollTo 0 0 (line 99): its return
phase is one jump, not a gradual multi-step return, so the claim as stated
fails on this program. -/
theorem C9_counterexample :
    scrapeReturnCmds = [ScrollCmd.absTo 0] ∧ scrapeReturnCmds.length = 1 :=
  ⟨rfl, rfl⟩

/-- Claim C9, amended: on completion the SCRAPE.py vertical sweeper commands
the axis back to its origin offset, but with a single absolute jump rather
than gradually; the scroll-page routine of doordash_scraper.py is the variant
that returns gradually, in n relative steps with n between 5 and 10, and in
exact arithmetic those steps land the axis at offset 0. -/
theorem C9_return_to_origin :
    (∀ maxOff off : ℚ, 0 ≤ maxOff → runCmds maxOff off scrapeReturnCmds = 0) ∧
    scrapeReturnCmds.length = 1 ∧
    (∀ (h : ℚ) (n : Nat) (maxOff : ℚ), 5 ≤ n → n ≤ 10 → 0 ≤ h → h ≤ maxOff →
        runCmds maxOff h (ddReturnCmds h n) = 0 ∧
        2 ≤ (ddReturnCmds h n).length) := by
  refine ⟨?_, rfl, ?_⟩
  · intro maxOff off hm
    unfold runCmds scrapeReturnCmds
    rw [List.foldl_cons, List.foldl_nil]
    simp only [applyCmd]
    rw [min_eq_left hm, max_eq_right (le_refl 0)]
  · intro h n maxOff h5 h10 hh hm
    have hn0 : (n : ℚ) ≠ 0 := by
      have h5' : (5 : ℚ) ≤ (n : ℚ) := by exact_mod_cast h5
      linarith
    have hs : 0 ≤ h / (n : ℚ) := div_nonneg hh (Nat.cast_nonneg n)
    have hcancel : (n : ℚ) * (h / (n : ℚ)) = h := mul_div_cancel₀ h hn0
    constructor
    · have hrun := runCmds_replicate maxOff (h / (n : ℚ)) hs n h
        (by rw [hcancel]; simp) hm
      unfold ddReturnCmds
      rw [hrun, hcancel, sub_self]
    · rw [ddReturnCmds, List.length_replicate]
      omega

/-- Claim C9, witness: the gradual return applied with offset 100, five
steps, and maximal offset 100 lands at the origin in more than one step. -/
theorem C9_witness :
    runCmds 100 100 (ddReturnCmds 100 5) = 0 ∧ 2 ≤ (ddReturnCmds 100 5).length :=
  C9_return_to_origin.2.2 100 5 100 (by norm_num) (by norm_num) (by norm_num)
    (by norm_num)

/-- A node whose extraction fails leaves the state unchanged: the bare except
of the per-node loop catches the failure before any mutation. -/
theorem processNode_extractFail (hm : List Header) (st : ScrapeState)
    (n : ItemNode) (h : n.extractOk = false) : processNode hm st n = st := by
  rcases hlab : n.ariaLabel with _ | lbl
  · simp [processNode, hlab]
  · by_cases hemp : lbl = []
    · simp [processNode, hlab, hemp]
    · by_cases hseen : nameOf lbl ∈ st.seenHashes
      · simp [processNode, hlab, hemp, hseen]
      · simp [processNode, hlab, hemp, hseen, h]

/-- A node whose derived hash is already in the ledger is skipped. -/
theorem processNode_seen (hm : List Header) (st : ScrapeState) (n : ItemNode)
    (lbl : Str) (hlab : n.ariaLabel = some lbl)
    (hseen : nameOf lbl ∈ st.seenHashes) : processNode hm st n = st := by
  by_cases hemp : lbl = []
  · simp [processNode, hlab, hemp]
  · simp [processNode, hlab, hemp, hseen]

/-- Case analysis of the per-node body: either the state is unchanged, or a
fresh usable node appends exactly one item and records its hash. -/
theorem processNode_cases (hm : List Header) (st : ScrapeState) (n : ItemNode) :
    processNode hm st n = st ∨
    ∃ lbl, n.ariaLabel = some lbl ∧ lbl ≠ [] ∧ nameOf lbl ∉ st.seenHashes ∧
      n.extractOk = true ∧
      processNode hm st n =
        ⟨menuAdd st.masterMenu (assignCategory hm (n.sourceline.getD 0))
            ⟨nameOf lbl, n.priceText.map pyStrip, n.imgTag.join⟩,
          nameOf lbl :: st.seenHashes⟩ := by
  rcases hlab : n.ariaLabel with _ | lbl
  · exact Or.inl (by simp [processNode, hlab])
  · by_cases hemp : lbl = []
    · exact Or.inl (by simp [processNode, hlab, hemp])
    · by_cases hseen : nameOf lbl ∈ st.seenHashes
      · exact Or.inl (by simp [processNode, hlab, hemp, hseen])
      · by_cases hex : n.extractOk = false
        · exact Or.inl (processNode_extractFail hm st n hex)
        · refine Or.inr ⟨lbl, rfl, hemp, hseen, by simpa using hex, ?_⟩
          simp [processNode, hlab, hemp, hseen, hex]

/-- The seen ledger never shrinks across one node. -/
theorem processNode_seen_mono (hm : List Header) (st : ScrapeState)
    (n : ItemNode) : st.seenHashes ⊆ (processNode hm st n).seenHashes := by
  rcases processNode_cases hm st n with h | ⟨lbl, _, _, _, _, h⟩
  · rw [h]
    exact List.Subset.refl _
  · rw [h]
    exact List.subset_cons_self _ _

/-- After processing a usable node its hash is in the ledger. -/
theorem processNode_mem_seen (hm : List Header) (st : ScrapeState)
    (n : ItemNode) (lbl : Str) (hlab : n.ariaLabel = some lbl)
    (hemp : lbl ≠ []) (hok : n.extractOk = true) :
    nameOf lbl ∈ (processNode hm st n).seenHashes := by
  by_cases hseen : nameOf lbl ∈ st.seenHashes
  · rw [processNode_seen hm st n lbl hlab hseen]
    exact hseen
  · have hex : ¬ n.extractOk = false := by simp [hok]
    simp [processNode, hlab, hemp, hseen, hex]

/-- One parse step on a cons node list. -/
theorem parseView_cons (hm : List Header) (st : ScrapeState) (n : ItemNode)
    (ns : List ItemNode) :
    parseView hm st (n :: ns) = parseView hm (processNode hm st n) ns := rfl

/-- The seen ledger never shrinks across a whole sample. -/
theorem parseView_seen_mono (hm : List Header) :
    ∀ (ns : List ItemNode) (st : ScrapeState),
      st.seenHashes ⊆ (parseView hm st ns).seenHashes := by
  intro ns
  induction ns with
  | nil =>
    intro st
    exact List.Subset.refl _
  | cons n ns ih =>
    intro st
    rw [parseView_cons]
    exact (processNode_seen_mono hm st n).trans (ih (processNode hm st n))

/-- After a sample is parsed, the hash of each of its usable nodes is in the
ledger. -/
theorem parseView_mem_seen (hm : List Header) :
    ∀ (ns : List ItemNode) (st : ScrapeState) (n : ItemNode), n ∈ ns →
      ∀ lbl, n.ariaLabel = some lbl → lbl ≠ [] → n.extractOk = true →
        nameOf lbl ∈ (parseView hm st ns).seenHashes := by
  intro ns
  induction ns with
  | nil =>
    intro st n hn
    cases hn
  | cons m ms ih =>
    intro st n hn lbl hlab hemp hok
    rcases List.mem_cons.mp hn with rfl | hn'
    · rw [parseView_cons]
      exact parseView_seen_mono hm ms _
        (processNode_mem_seen hm st n lbl hlab hemp hok)
    · rw [parseView_cons]
      exact ih _ n hn' lbl hlab hemp hok

/-- A node none of whose usable readings is fresh leaves the state
unchanged. -/
theorem processNode_settled (hm : List Header) (st : ScrapeState)
    (n : ItemNode)
    (h : ∀ lbl, n.ariaLabel = some lbl → lbl ≠ [] → n.extractOk = true →
      nameOf lbl ∈ st.seenHashes) :
    processNode hm st n = st := by
  rcases processNode_cases hm st n with heq | ⟨lbl, hlab, hemp, hseen, hok, _⟩
  · exact heq
  · exact absurd (h lbl hlab hemp hok) hseen

/-- A sample each of whose nodes fixes the state parses to the same state. -/
theorem parseView_fix (hm : List Header) :
    ∀ (ns : List ItemNode) (st : ScrapeState),
      (∀ n ∈ ns, processNode hm st n = st) → parseView hm st ns = st := by
  intro ns
  induction ns with
  | nil =>
    intro st _
    rfl
  | cons m ms ih =>
    intro st h
    rw [parseView_cons, h m (List.mem_cons_self m ms)]
    exact ih st (fun n hn => h n (List.mem_cons_of_mem m hn))

/-- Unfolding the name multiset of a cons menu. -/
theorem menuNames_cons (p : Str × List MenuItem) (menu : List (Str × List MenuItem)) :
    menuNames (p :: menu) = p.2.map (fun it => it.name) ++ menuNames menu := rfl

/-- Adding one item to the menu adds exactly its name to the name multiset,
up to permutation. -/
theorem menuNames_menuAdd (cat : Str) (it : MenuItem) :
    ∀ menu, (menuNames (menuAdd menu cat it)).Perm (it.name :: menuNames menu) := by
  intro menu
  induction menu with
  | nil =>
    simp [menuAdd, menuNames]
  | cons p rest ih =>
    by_cases h : p.1 = cat
    · simp only [menuAdd, if_pos h, menuNames_cons]
      rw [List.map_append, List.append_assoc]
      exact List.perm_middle
    · simp only [menuAdd, if_neg h, menuNames_cons]
      exact (List.Perm.append_left _ ih).trans List.perm_middle

/-- The dedup invariant is preserved by one node. -/
theorem goodState_processNode (hm : List Header) (st : ScrapeState)
    (n : ItemNode) (h : goodState st) : goodState (processNode hm st n) := by
  rcases processNode_cases hm st n with heq | ⟨lbl, hlab, hemp, hseen, hok, heq⟩
  · rw [heq]
    exact h
  · rw [heq]
    have hperm := menuNames_menuAdd (assignCategory hm (n.sourceline.getD 0))
      ⟨nameOf lbl, n.priceText.map pyStrip, n.imgTag.join⟩ st.masterMenu
    constructor
    · rw [hperm.nodup_iff, List.nodup_cons]
      exact ⟨fun hc => hseen (h.2 _ hc), h.1⟩
    · intro nm hnm
      rcases List.mem_cons.mp (hperm.mem_iff.mp hnm) with heq' | hmem
      · rw [heq']
        exact List.mem_cons_self _ _
      · exact List.mem_cons_of_mem _ (h.2 nm hmem)

/-- The dedup invariant is preserved by a whole sample. -/
theorem goodState_parseView (hm : List Header) :
    ∀ (ns : List ItemNode) (st : ScrapeState), goodState st →
      goodState (parseView hm st ns) := by
  intro ns
  induction ns with
  | nil =>
    intro st h
    exact h
  | cons n ns ih =>
    intro st h
    rw [parseView_cons]
    exact ih _ (goodState_processNode hm st n h)

/-- The dedup invariant is preserved by any sequence of samples. -/
theorem goodState_foldl (hm : List Header) :
    ∀ (samples : List (List ItemNode)) (st : ScrapeState), goodState st →
      goodState (samples.foldl (fun s ns => parseView hm s ns) st) := by
  intro samples
  induction samples with
  | nil =>
    intro st h
    exact h
  | cons ns rest ih =>
    intro st h
    rw [List.foldl_cons]
    exact ih _ (goodState_parseView hm ns st h)

/-- Claim C3: across a whole discovery run on the shared ledger and result
mapping, parsing the same sample twice equals parsing it once; a sample all
of whose labelled nodes carry already-ledgered identities leaves the state
unchanged; the ledger only ever grows; and any run from the empty state puts
each identity key in the result mapping at most once, every recorded name
being ledgered. -/
theorem C3_shared_dedup :
    (∀ (hm : List Header) (st : ScrapeState) (ns : List ItemNode),
        parseView hm (parseView hm st ns) ns = parseView hm st ns) ∧
    (∀ (hm : List Header) (st : ScrapeState) (ns : List ItemNode),
        (∀ n ∈ ns, ∀ lbl, n.ariaLabel = some lbl → lbl ≠ [] →
          nameOf lbl ∈ st.seenHashes) →
        parseView hm st ns = st) ∧
    (∀ (hm : List Header) (st : ScrapeState) (ns : List ItemNode),
        st.seenHashes ⊆ (parseView hm st ns).seenHashes) ∧
    (∀ (hm : List Header) (samples : List (List ItemNode)),
        (menuNames (runSamples hm samples).masterMenu).Nodup ∧
        ∀ nm ∈ menuNames (runSamples hm samples).masterMenu,
          nm ∈ (runSamples hm samples).seenHashes) := by
  refine ⟨?_, ?_, ?_, ?_⟩
  · intro hm st ns
    refine parseView_fix hm ns _ (fun n hn => processNode_settled hm _ n ?_)
    intro lbl hlab hemp hok
    exact parseView_mem_seen hm ns st n hn lbl hlab hemp hok
  · intro hm st ns h
    refine parseView_fix hm ns st (fun n hn => processNode_settled hm st n ?_)
    intro lbl hlab hemp _
    exact h n hn lbl hlab hemp
  · intro hm st ns
    exact parseView_seen_mono hm ns st
  · intro hm samples
    exact goodState_foldl hm samples initState
      ⟨List.nodup_nil, fun nm h => absurd h (List.not_mem_nil nm)⟩

/-- Claim C3, witness: a second feed of a sample whose only node carries an
already-ledgered identity changes nothing. -/
theorem C3_witness :
    parseView [] ⟨[], ["Burger".toList]⟩
        [⟨some "Burger $5".toList, none, none, none, true⟩] =
      ⟨[], ["Burger".toList]⟩ :=
  C3_shared_dedup.2.1 [] ⟨[], ["Burger".toList]⟩
    [⟨some "Burger $5".toList, none, none, none, true⟩]
    (by
      intro n hn lbl hlab hemp
      rw [List.mem_singleton] at hn
      subst hn
      have hl : "Burger $5".toList = lbl := Option.some.inj hlab
      rw [← hl]
      decide)

/-- Claim C6: a per-node extraction failure never aborts sampling: the
failing candidate leaves the state unchanged, and parsing a snapshot with the
failing node present equals parsing it with that node dropped, every other
node still being processed. -/
theorem C6_extraction_isolated :
    (∀ (hm : List Header) (st : ScrapeState) (bad : ItemNode),
        bad.extractOk = false → processNode hm st bad = st) ∧
    (∀ (hm : List Header) (st : ScrapeState) (xs ys : List ItemNode)
        (bad : ItemNode), bad.extractOk = false →
        parseView hm st (xs ++ bad :: ys) = parseView hm st (xs ++ ys)) := by
  refine ⟨processNode_extractFail, ?_⟩
  intro hm st xs ys bad hbad
  unfold parseView
  rw [List.foldl_append, List.foldl_append, List.foldl_cons,
    processNode_extractFail hm _ bad hbad]

/-- Claim C6, witness: a snapshot holding one malformed node parses exactly
as the snapshot with that node dropped. -/
theorem C6_witness :
    parseView [] initState
        ([] ++ (⟨some "Soda $2".toList, none, none, none, false⟩ : ItemNode) :: []) =
      parseView [] initState ([] ++ []) :=
  C6_extraction_isolated.2 [] initState [] []
    ⟨some "Soda $2".toList, none, none, none, false⟩ rfl

/-- Claim C10: the identity key is exactly the cleaned name, so item names
are globally unique across the whole result mapping: every run from the empty
state yields a master menu whose item names, across all category keys, hold
no duplicate; and a node whose cleaned name was already seen anywhere is
silently dropped, leaving the state unchanged. -/
theorem C10_names_globally_unique :
    (∀ (hm : List Header) (st : ScrapeState) (n : ItemNode) (lbl : Str),
        n.ariaLabel = some lbl → nameOf lbl ∈ st.seenHashes →
        processNode hm st n = st) ∧
    (∀ (hm : List Header) (samples : List (List ItemNode)),
        (menuNames (runSamples hm samples).masterMenu).Nodup) := by
  refine ⟨?_, ?_⟩
  · intro hm st n lbl hlab hseen
    exact processNode_seen hm st n lbl hlab hseen
  · intro hm samples
    exact (goodState_foldl hm samples initState
      ⟨List.nodup_nil, fun nm h => absurd h (List.not_mem_nil nm)⟩).1

/-- Claim C10, witness: a node whose cleaned name is already recorded,
possibly under another category, is dropped with no change. -/
theorem C10_witness :
    processNode [] ⟨[], ["Soda".toList]⟩
        ⟨some "Soda $2".toList, none, none, none, true⟩ =
      ⟨[], ["Soda".toList]⟩ :=
  C10_names_globally_unique.1 [] ⟨[], ["Soda".toList]⟩
    ⟨some "Soda $2".toList, none, none, none, true⟩ "Soda $2".toList rfl
    (by decide)

end DScrape
